import Mathlib

/-!
Verification of the "Duplicate with Children" hierarchy-duplication logic
(`src/__init__.py`).

The scene graph is a forest of objects.  Objects are identified by numeric
ids; per-object mutable state (hide flags, selection flag, name, collection
membership) is kept in a separate `Scene` record so that the operations of
`OBJECT_OT_duplicate_with_children_base` can be embedded as state-passing
functions:

* `get_all_children`  — recursive descendant collection (source lines 19-26);
* `filter_selection`  — top-level filtering of a selection (lines 28-44);
* `duplicate_with_selection_mapping` — the main operation (lines 82-207).

Host primitives (`bpy.ops.object.duplicate`, `select_all`, `select_set`,
`hide_set`, ...) are not repository code; they are modelled from the spec's
external-interface section (selection primitives act on a per-object
selected flag; the duplicate primitive duplicates the currently selected
set and leaves exactly the fresh copies selected).
-/

mutual
/-- A scene-graph node: an object id together with the ordered forest of its
child objects (`obj.children` in the source). -/
inductive HTree : Type where
  | node (id : Nat) (children : HForest)
  deriving DecidableEq
/-- An ordered forest of scene-graph nodes. -/
inductive HForest : Type where
  | nil
  | cons (t : HTree) (f : HForest)
  deriving DecidableEq
end

def HTree.id : HTree → Nat
  | .node i _ => i

def HTree.children : HTree → HForest
  | .node _ cs => cs

/-- The children forest as a plain list (order preserved). -/
def HForest.toList : HForest → List HTree
  | .nil => []
  | .cons t f => t :: f.toList

mutual
/-- Preorder id list of a tree: the node's id before all its descendants. -/
def HTree.ids : HTree → List Nat
  | .node i cs => i :: cs.ids
/-- Preorder id list of a forest, trees in their original order. -/
def HForest.ids : HForest → List Nat
  | .nil => []
  | .cons t f => t.ids ++ f.ids
end

/-- `Desc t d`: the node `d` is a strict descendant of `t`, i.e. reachable
from `t` via repeated `children` expansion (at least one step). -/
inductive Desc : HTree → HTree → Prop
  | here  {t c : HTree} : c ∈ t.children.toList → Desc t c
  | there {t c d : HTree} : c ∈ t.children.toList → Desc c d → Desc t d

/-- `DescF f d`: `d` is a node of the forest `f` (a root of `f` or a strict
descendant of a root). -/
def DescF (f : HForest) (d : HTree) : Prop :=
  ∃ t ∈ f.toList, t = d ∨ Desc t d

mutual
/-- Embedding of `get_all_children` (source lines 19-26): collects the ids of
the descendants of the node, walking each child and, unless the child is
hidden while `include_hidden` is false, appending the child and recursing
into it (skipping a hidden child prunes its whole subtree).  `hideGet i` is
the host's `hide_get()` flag of object `i`. -/
def get_all_children (hideGet : Nat → Bool) (include_hidden : Bool) :
    HTree → List Nat
  | .node _ cs => get_all_children_forest hideGet include_hidden cs
/-- The `for child in obj.children` loop of `get_all_children`. -/
def get_all_children_forest (hideGet : Nat → Bool) (include_hidden : Bool) :
    HForest → List Nat
  | .nil => []
  | .cons c f =>
    (if include_hidden || !(hideGet c.id) then
      c.id :: get_all_children hideGet include_hidden c
    else []) ++ get_all_children_forest hideGet include_hidden f
end

/-- The ids of the direct children of a node. -/
def childIds (t : HTree) : List Nat := t.children.toList.map HTree.id

/-- The ids of the roots of a forest. -/
def rootIds (f : HForest) : List Nat := f.toList.map HTree.id

mutual
/-- `obj.parent` resolved inside one tree: the id of the preorder-first node
having `x` among its direct children. -/
def parentOfT (x : Nat) : HTree → Option Nat
  | .node i cs =>
    if x ∈ (HForest.toList cs).map HTree.id then some i else parentOfF x cs
/-- `obj.parent` resolved in a forest (roots have no parent). -/
def parentOfF (x : Nat) : HForest → Option Nat
  | .nil => none
  | .cons t f =>
    match parentOfT x t with
    | some p => some p
    | none => parentOfF x f
end

/-- The `while parent:` walk of `filter_selection` (source lines 34-39), with
explicit fuel; in a well-formed forest (duplicate-free ids) fuel
`f.ids.length` reaches a root (`anc_mem_parent_chain`). -/
def parent_chain (f : HForest) : Nat → Nat → List Nat
  | 0, _ => []
  | fuel + 1, x =>
    match parentOfF x f with
    | none => []
    | some p => p :: parent_chain f fuel p

/-- The loop test of `filter_selection` (source lines 32-39): whether some
ancestor reached from `x` by the parent walk lies in the selection `S`. -/
def is_child_of_selected (f : HForest) (S : List Nat) (x : Nat) : Bool :=
  (parent_chain f f.ids.length x).any (fun p => S.contains p)

/-- Embedding of `filter_selection` (source lines 28-44): keeps, in their
original order, the selected objects that have no selected ancestor. -/
def filter_selection (f : HForest) (S : List Nat) : List Nat :=
  S.filter (fun o => !(is_child_of_selected f S o))

/-- `Anc f a x`: `a` is reachable from `x` via repeated `parent` steps (the
ancestor notion of the spec's `filterTopLevel` description). -/
inductive Anc (f : HForest) : Nat → Nat → Prop
  | parent {x p : Nat} : parentOfF x f = some p → Anc f p x
  | step {x p a : Nat} : parentOfF x f = some p → Anc f a p → Anc f a x

/-- Per-object hide state: the `hide_get()` flag, `hide_viewport` and
`hide_select`. -/
structure ObjHide where
  hideGet : Bool
  hideViewport : Bool
  hideSelect : Bool
  deriving DecidableEq

/-- Per-collection hide state: `hide_viewport` and `hide_select`. -/
structure CollHide where
  hideViewport : Bool
  hideSelect : Bool
  deriving DecidableEq

/-- Per-layer-collection hide state: `hide_viewport` and `exclude`. -/
structure LayerHide where
  hideViewport : Bool
  exclude : Bool
  deriving DecidableEq

/-- The host scene state touched by the operator: the object hierarchy
(`forest`, parent/children links), the host's object enumeration order
(`objOrder`, used by `context.selected_objects`), per-object hide flags,
selection flags and names, the active object, collection membership
(`users_collection`), per-collection and per-layer-collection hide flags
(the layer-collection tree `layerColl` carries collection ids and mirrors
collection nesting), and a fresh-id counter for the host duplicate
primitive. -/
structure Scene where
  forest : HForest
  objOrder : List Nat
  hide : Nat → ObjHide
  selected : Nat → Bool
  active : Option Nat
  usersCollection : Nat → List Nat
  collHide : Nat → CollHide
  layerColl : HTree
  lcHide : Nat → LayerHide
  name : Nat → Nat
  nextId : Nat

/-- `context.selected_objects`: the objects whose selected flag is set, in
scene enumeration order. -/
def selectedObjects (s : Scene) : List Nat := s.objOrder.filter s.selected

/-- Point update of a function-valued state component. -/
def upd {α : Type} (f : Nat → α) (k : Nat) (v : α) : Nat → α :=
  fun i => if i = k then v else f i

mutual
/-- Embedding of `find_layer_collection` (source lines 124-132): the
preorder-first layer collection whose collection is `target`, identified by
its collection id. -/
def find_layer_collection (lc : HTree) (target : Nat) : Option Nat :=
  match lc with
  | .node i cs => if i = target then some i else find_layer_collection_forest cs target
/-- The `for child in layer_collection.children` loop of
`find_layer_collection`, returning the first hit. -/
def find_layer_collection_forest (f : HForest) (target : Nat) : Option Nat :=
  match f with
  | .nil => none
  | .cons c f =>
    match find_layer_collection c target with
    | some r => some r
    | none => find_layer_collection_forest f target
end

mutual
/-- The preorder-first subtree of a tree whose root has id `i`. -/
def findTreeT (i : Nat) (t : HTree) : Option HTree :=
  match t with
  | .node j cs => if j = i then some (.node j cs) else findTreeF i cs
/-- The preorder-first subtree of a forest whose root has id `i`. -/
def findTreeF (i : Nat) : HForest → Option HTree
  | .nil => none
  | .cons c f =>
    match findTreeT i c with
    | some r => some r
    | none => findTreeF i f
end

/-- `get_all_children(obj, include_hidden=True)` for the object with id `i`,
resolved against the scene forest. -/
def getAllChildrenId (s : Scene) (i : Nat) : List Nat :=
  match findTreeF i s.forest with
  | some t => get_all_children (fun j => (s.hide j).hideGet) true t
  | none => []

/-- Source lines 92-96: the raw caller selection with each member's full
descendant list appended after it (no top-level filtering is applied). -/
def all_objects_to_duplicate (s : Scene) : List Nat :=
  (selectedObjects s).flatMap (fun o => o :: getAllChildrenId s o)

/-- Python-dict insertion: overwrite the value at an existing key in place,
or append a new entry at the end. -/
def dictInsert {α : Type} (m : List (Nat × α)) (k : Nat) (v : α) :
    List (Nat × α) :=
  if (m.map Prod.fst).contains k then
    m.map (fun p => if p.1 = k then (k, v) else p)
  else m ++ [(k, v)]

/-- Python-dict lookup. -/
def dictLookup {α : Type} (m : List (Nat × α)) (k : Nat) : Option α :=
  (m.find? (fun p => p.1 == k)).map Prod.snd

/-- The mutable state threaded through the hide-state recording loop of
source lines 98-141: the three hide-flag maps plus the three recorded
prior-state dicts. -/
structure RecordSt where
  hide : Nat → ObjHide
  collHide : Nat → CollHide
  lcHide : Nat → LayerHide
  objStates : List (Nat × ObjHide)
  collStates : List (Nat × CollHide)
  lcStates : List (Nat × LayerHide)

/-- Body of the `for collection in obj.users_collection` loop (source lines
114-141): record and clear the collection flags when the collection is not
yet recorded, then locate its layer collection and record and clear the
layer-collection flags when not yet recorded. -/
def processCollection (layerColl : HTree) (st : RecordSt) (c : Nat) :
    RecordSt :=
  let st :=
    if (st.collStates.map Prod.fst).contains c then st
    else { st with
      collStates := st.collStates ++ [(c, st.collHide c)],
      collHide := upd st.collHide c ⟨false, false⟩ }
  match find_layer_collection layerColl c with
  | none => st
  | some lc =>
    if (st.lcStates.map Prod.fst).contains lc then st
    else { st with
      lcStates := st.lcStates ++ [(lc, st.lcHide lc)],
      lcHide := upd st.lcHide lc ⟨false, false⟩ }

/-- Body of the `for obj in all_objects_to_duplicate` loop (source lines
103-141): record the object's current hide flags (overwriting any earlier
record for the same object) and clear them, then process the object's
collections. -/
def processObject (layerColl : HTree) (usersCollection : Nat → List Nat)
    (st : RecordSt) (o : Nat) : RecordSt :=
  let st := { st with
    objStates := dictInsert st.objStates o (st.hide o),
    hide := upd st.hide o ⟨false, false, false⟩ }
  (usersCollection o).foldl (processCollection layerColl) st

/-- The recording loop of source lines 98-141 run over the whole
duplication list. -/
def recordAndClear (s : Scene) : RecordSt :=
  (all_objects_to_duplicate s).foldl
    (processObject s.layerColl s.usersCollection)
    ⟨s.hide, s.collHide, s.lcHide, [], [], []⟩

/-- The scene after source lines 98-149: hide flags cleared and recorded,
selection cleared and re-set to the whole duplication list, the first
originally selected object made active. -/
def sceneBeforeDup (s : Scene) : Scene :=
  let rec1 := recordAndClear s
  { s with
    hide := rec1.hide
    collHide := rec1.collHide
    lcHide := rec1.lcHide
    selected := fun i => (all_objects_to_duplicate s).contains i
    active := some ((selectedObjects s).headD 0) }

/-- Modelled from the spec: the host duplicate primitive
(`bpy.ops.object.duplicate`, consumed external interface, not repository
code).  It creates one fresh copy per currently selected object (fresh ids
from `nextId`, appended to the scene order; the copy's name sorts one past
the original's, as Blender's "name.001" does), copies the original's current
flags and collection membership onto the copy, leaves exactly the copies
selected, and moves the active pointer to the copy of the active object.
The provenance pairing (original id, copy id) is returned alongside as
ghost data: the addon cannot observe it, theorems use it to count copies. -/
def hostDuplicate (s : Scene) : Scene × List (Nat × Nat) :=
  let sel := selectedObjects s
  let prov := sel.enum.map (fun p => (p.2, s.nextId + p.1))
  let dups := prov.map Prod.snd
  ({ s with
      objOrder := s.objOrder ++ dups
      hide := fun i =>
        match prov.find? (fun p => p.2 == i) with
        | some p => s.hide p.1
        | none => s.hide i
      name := fun i =>
        match prov.find? (fun p => p.2 == i) with
        | some p => s.name p.1 + 1
        | none => s.name i
      usersCollection := fun i =>
        match prov.find? (fun p => p.2 == i) with
        | some p => s.usersCollection p.1
        | none => s.usersCollection i
      selected := fun i => dups.contains i
      active :=
        match s.active with
        | none => none
        | some a =>
          match prov.find? (fun p => p.1 == a) with
          | some p => some p.2
          | none => some a
      nextId := s.nextId + sel.length },
    prov)

/-- Stable insert for the name sort: place `a` before the first element whose
name is not smaller. -/
def insertByName (name : Nat → Nat) (a : Nat) : List Nat → List Nat
  | [] => [a]
  | b :: l => if name a ≤ name b then a :: b :: l else b :: insertByName name a l

/-- Python's stable `sorted(..., key=lambda obj: obj.name)` (source lines
160-162); on duplicate-free name keys every correct sort computes the same
list. -/
def sortByName (name : Nat → Nat) : List Nat → List Nat
  | [] => []
  | a :: l => insertByName name a (sortByName name l)

/-- The scene right after the host duplicate call (source line 155). -/
def sceneAfterDup (s : Scene) : Scene := (hostDuplicate (sceneBeforeDup s)).1

/-- Source line 158: `duplicated_objects = context.selected_objects.copy()`. -/
def duplicatedObjects (s : Scene) : List Nat := selectedObjects (sceneAfterDup s)

/-- Source line 161: the pre-duplication list sorted by name. -/
def sortedOriginals (s : Scene) : List Nat :=
  sortByName (sceneAfterDup s).name (all_objects_to_duplicate s)

/-- Source line 162: the post-duplication selection sorted by name. -/
def sortedDuplicates (s : Scene) : List Nat :=
  sortByName (sceneAfterDup s).name (duplicatedObjects s)

/-- The zip of the two name-sorted lists (source line 166's iteration). -/
def mappingPairs (s : Scene) : List (Nat × Nat) :=
  (sortedOriginals s).zip (sortedDuplicates s)

/-- The original-to-duplicate dict of source lines 165-167, built by
inserting the zipped pairs in order. -/
def mappingOf (s : Scene) : List (Nat × Nat) :=
  (mappingPairs s).foldl (fun m p => dictInsert m p.1 p.2) []

/-- Source lines 170-178: for every mapping pair whose original has a
recorded hide state, re-apply that recorded state to both the original and
the duplicate. -/
def applyHideStates (objStates : List (Nat × ObjHide))
    (mapping : List (Nat × Nat)) (hide : Nat → ObjHide) : Nat → ObjHide :=
  mapping.foldl (fun h od =>
    match dictLookup objStates od.1 with
    | some st => upd (upd h od.1 st) od.2 st
    | none => h) hide

/-- Source lines 190-198: clear the selection, then deselect every
originally selected object and select its duplicate when the mapping has
one. -/
def applySelectionPattern (mapping : List (Nat × Nat))
    (originalSelection : List Nat) : Nat → Bool :=
  originalSelection.foldl (fun sel o =>
    let sel := upd sel o false
    match dictLookup mapping o with
    | some d => upd sel d true
    | none => sel) (fun _ => false)

/-- Source lines 200-202: make the duplicate of the original active object
active, when the original active object has a mapping entry. -/
def setActiveFromMapping (mapping : List (Nat × Nat))
    (originalActive : Option Nat) (sc : Scene) : Scene :=
  match originalActive with
  | none => sc
  | some a =>
    match dictLookup mapping a with
    | some d => { sc with active := some d }
    | none => sc

/-- Result of `duplicate_with_selection_mapping`: the returned pair
(`count`, `error`), the final scene, and the host duplicate provenance
(ghost data, see `hostDuplicate`). -/
structure RunOut where
  count : Option Nat
  error : Option String
  scene : Scene
  prov : List (Nat × Nat)

/-- Embedding of `duplicate_with_selection_mapping` (source lines 82-207).
The `linkedData` flag only chooses between the linked and the full-copy
variant of the host duplicate primitive, whose scene-graph level behaviour
is identical; the final `transform.translate` hand-off is modal interaction
with no scene-graph effect of its own. -/
def duplicate_with_selection_mapping (s : Scene) (linkedData : Bool) :
    RunOut :=
  let originalSelection := selectedObjects s
  let originalActive := s.active
  if originalSelection = [] then
    { count := none, error := some "No valid objects selected",
      scene := s, prov := [] }
  else
    let _ := linkedData
    let rec1 := recordAndClear s
    let s2 := sceneBeforeDup s
    let (s3, prov) := hostDuplicate s2
    let mapping := mappingOf s
    let s4 := { s3 with hide := applyHideStates rec1.objStates mapping s3.hide }
    let s5 := { s4 with
      collHide := rec1.collStates.foldl
        (fun g (p : Nat × CollHide) => upd g p.1 p.2) s4.collHide
      lcHide := rec1.lcStates.foldl
        (fun g (p : Nat × LayerHide) => upd g p.1 p.2) s4.lcHide }
    let s6 := { s5 with selected := applySelectionPattern mapping originalSelection }
    let s7 := setActiveFromMapping mapping originalActive s6
    { count := some originalSelection.length, error := none,
      scene := s7, prov := prov }

/-- Concrete scene tree used by witnesses: object 0 with children 1 and 3,
object 1 having child 2. -/
def t0 : HTree :=
  .node 0 (.cons (.node 1 (.cons (.node 2 .nil) .nil)) (.cons (.node 3 .nil) .nil))

/-- Concrete hide-flag assignment used by witnesses: only object 1 is hidden. -/
def hide1 : Nat → Bool := fun i => i == 1

/-- Concrete scene forest used by witnesses: just the tree `t0`. -/
def f0 : HForest := .cons t0 .nil

/-- Concrete scene used by counterexamples and witnesses: object 0 ("A",
name 10, unhidden) with child object 1 ("B", name 20, hidden via the
`hide_get` flag), both selected, 0 active, no collections, fresh ids from
2. -/
def sceneAB : Scene where
  forest := .cons (.node 0 (.cons (.node 1 .nil) .nil)) .nil
  objOrder := [0, 1]
  hide := fun i => if i = 1 then ⟨true, false, false⟩ else ⟨false, false, false⟩
  selected := fun i => i == 0 || i == 1
  active := some 0
  usersCollection := fun _ => []
  collHide := fun _ => ⟨false, false⟩
  layerColl := .node 100 .nil
  lcHide := fun _ => ⟨false, false⟩
  name := fun i => 10 * i + 10
  nextId := 2

/-- Concrete scene with nothing selected, used by the no-selection witness:
same hierarchy as `sceneAB`, all selection flags clear. -/
def sceneNoSel : Scene :=
  { sceneAB with selected := fun _ => false, active := none }

/-! #### End of definitions marker: further definitions are inserted above. -/

/-! ## Supporting lemmas -/

theorem HTree.ids_def (t : HTree) : t.ids = t.id :: t.children.ids := by
  cases t; rfl

theorem Desc.trans {t c d : HTree} (h₁ : Desc t c) (h₂ : Desc c d) : Desc t d := by
  induction h₁ with
  | here hm => exact Desc.there hm h₂
  | there hm _ ih => exact Desc.there hm (ih h₂)

mutual
/-- With `include_hidden = true` the collection is exactly the preorder id
list of the node's strict-descendant part, independent of the hide flags. -/
theorem get_all_children_true (hideGet : Nat → Bool) (t : HTree) :
    get_all_children hideGet true t = t.children.ids := by
  cases t with
  | node i cs => exact get_all_children_forest_true hideGet cs

theorem get_all_children_forest_true (hideGet : Nat → Bool) (f : HForest) :
    get_all_children_forest hideGet true f = f.ids := by
  cases f with
  | nil => rfl
  | cons c f =>
    simp only [get_all_children_forest, get_all_children_forest_true hideGet f,
      get_all_children_true hideGet c, Bool.true_or, if_true, HForest.ids]
    rw [HTree.ids_def]
end

/-- A member of a forest contributes a contiguous block to the preorder ids. -/
theorem toList_mem_split {f : HForest} {t : HTree} (h : t ∈ f.toList) :
    ∃ p q, f.ids = p ++ t.ids ++ q := by
  cases f with
  | nil => cases h
  | cons c f =>
    rcases List.mem_cons.1 h with rfl | h
    · exact ⟨[], f.ids, rfl⟩
    · rcases toList_mem_split h with ⟨p, q, hpq⟩
      exact ⟨c.ids ++ p, q, by simp [HForest.ids, hpq]⟩

/-- A strict descendant contributes a contiguous block to the preorder ids of
the children forest. -/
theorem desc_split {t d : HTree} (h : Desc t d) :
    ∃ p q, t.children.ids = p ++ d.ids ++ q := by
  induction h with
  | here hm => exact toList_mem_split hm
  | @there t c d hm _ ih =>
    rcases toList_mem_split hm with ⟨p, q, hpq⟩
    rcases ih with ⟨p', q', hpq'⟩
    refine ⟨p ++ (c.id :: p'), q' ++ q, ?_⟩
    rw [hpq, HTree.ids_def, hpq']
    simp

/-- A forest node contributes a contiguous block to the forest's preorder ids. -/
theorem descF_split {f : HForest} {d : HTree} (h : DescF f d) :
    ∃ p q, f.ids = p ++ d.ids ++ q := by
  rcases h with ⟨t, ht, rfl | hd⟩
  · exact toList_mem_split ht
  · rcases toList_mem_split ht with ⟨p, q, hpq⟩
    rcases desc_split hd with ⟨p', q', hpq'⟩
    refine ⟨p ++ ([t.id] ++ p'), q' ++ q, ?_⟩
    rw [hpq, HTree.ids_def, hpq']
    simp

theorem id_mem_ids (t : HTree) : t.id ∈ t.ids := by
  rw [HTree.ids_def]; exact List.mem_cons_self _ _

/-- Strict descendance below a node is node membership of its children forest. -/
theorem desc_iff_descF_children {t d : HTree} : Desc t d ↔ DescF t.children d := by
  constructor
  · intro h
    cases h with
    | here hm => exact ⟨d, hm, Or.inl rfl⟩
    | there hm hd => exact ⟨_, hm, Or.inr hd⟩
  · rintro ⟨c, hc, rfl | hd⟩
    · exact Desc.here hc
    · exact Desc.there hc hd

mutual
/-- Preorder ids of a tree are its own id and the ids of its descendants. -/
theorem mem_ids_tree {x : Nat} (t : HTree) :
    x ∈ t.ids ↔ x = t.id ∨ ∃ d, Desc t d ∧ d.id = x := by
  cases t with
  | node i cs =>
    show x ∈ i :: cs.ids ↔ _
    rw [List.mem_cons, mem_ids_forest cs]
    constructor
    · rintro (rfl | ⟨d, hd, rfl⟩)
      · exact Or.inl rfl
      · exact Or.inr ⟨d, desc_iff_descF_children.2 hd, rfl⟩
    · rintro (rfl | ⟨d, hd, rfl⟩)
      · exact Or.inl rfl
      · exact Or.inr ⟨d, desc_iff_descF_children.1 hd, rfl⟩

/-- Preorder ids of a forest are the ids of its nodes. -/
theorem mem_ids_forest {x : Nat} (f : HForest) :
    x ∈ f.ids ↔ ∃ d, DescF f d ∧ d.id = x := by
  cases f with
  | nil =>
    simp only [HForest.ids, List.not_mem_nil, false_iff]
    rintro ⟨d, ⟨t, ht, _⟩, rfl⟩
    cases ht
  | cons c f =>
    show x ∈ c.ids ++ f.ids ↔ _
    rw [List.mem_append, mem_ids_tree c, mem_ids_forest f]
    constructor
    · rintro ((rfl | ⟨d, hd, rfl⟩) | ⟨d, ⟨t, ht, hd⟩, rfl⟩)
      · exact ⟨c, ⟨c, List.mem_cons_self _ _, Or.inl rfl⟩, rfl⟩
      · exact ⟨d, ⟨c, List.mem_cons_self _ _, Or.inr hd⟩, rfl⟩
      · exact ⟨d, ⟨t, List.mem_cons_of_mem _ ht, hd⟩, rfl⟩
    · rintro ⟨d, ⟨t, ht, hd⟩, rfl⟩
      rcases List.mem_cons.1 ht with rfl | ht
      · rcases hd with rfl | hd
        · exact Or.inl (Or.inl rfl)
        · exact Or.inl (Or.inr ⟨d, hd, rfl⟩)
      · exact Or.inr ⟨d, ⟨t, ht, hd⟩, rfl⟩
end

/-- In a duplicate-free list, an element placed before another in a split has
the smaller index. -/
theorem indexOf_lt_of_split {l p r : List Nat} {a b : Nat}
    (hl : l = p ++ a :: r) (hb : b ∈ r) (hnd : l.Nodup) :
    l.indexOf a < l.indexOf b := by
  subst hl
  rw [List.nodup_append] at hnd
  rcases hnd with ⟨-, hnd₂, hdisj⟩
  have hba : b ≠ a := by
    rintro rfl
    exact (List.nodup_cons.1 hnd₂).1 hb
  have hap : a ∉ p := fun hap => hdisj hap (List.mem_cons_self _ _)
  have hbp : b ∉ p := fun hbp => hdisj hbp (List.mem_cons_of_mem _ hb)
  rw [List.indexOf_append_of_not_mem hap, List.indexOf_append_of_not_mem hbp,
    List.indexOf_cons_self, List.indexOf_cons_ne _ (Ne.symm hba)]
  omega

theorem ids_eq_join (f : HForest) : f.ids = (f.toList.map HTree.ids).join := by
  cases f with
  | nil => rfl
  | cons c f =>
    show c.ids ++ f.ids = _
    rw [ids_eq_join f]
    rfl

/-- A two-element sublist splits the list into five segments. -/
theorem two_sublist_split {a b : α} {L : List α} (h : [a, b].Sublist L) :
    ∃ l₁ l₂ l₃, L = l₁ ++ a :: (l₂ ++ b :: l₃) := by
  induction L with
  | nil => cases h
  | cons x L ih =>
    cases h with
    | cons _ h' =>
      rcases ih h' with ⟨l₁, l₂, l₃, rfl⟩
      exact ⟨x :: l₁, l₂, l₃, rfl⟩
    | cons₂ _ h' =>
      rcases List.append_of_mem (List.singleton_sublist.1 h') with ⟨l₂, l₃, rfl⟩
      exact ⟨[], l₂, l₃, rfl⟩

/-- Two siblings in a forest: the first one's id sits before the whole block
that contains the second one's id. -/
theorem sibling_ids_split {c₁ c₂ : HTree} {f : HForest}
    (h : [c₁, c₂].Sublist f.toList) :
    ∃ p r, f.ids = p ++ c₁.id :: r ∧ c₂.id ∈ r := by
  rcases two_sublist_split h with ⟨l₁, l₂, l₃, hsp⟩
  refine ⟨(l₁.map HTree.ids).join, c₁.children.ids ++
    ((l₂.map HTree.ids).join ++ (c₂.ids ++ (l₃.map HTree.ids).join)), ?_, ?_⟩
  · rw [ids_eq_join, hsp]
    simp [HTree.ids_def]
  · have : c₂.id ∈ c₂.ids := id_mem_ids c₂
    simp only [List.mem_append]
    tauto

/-- Ids of a strict descendant's subtree are ids of the ancestor's subtree. -/
theorem desc_ids_subset {t d : HTree} (h : Desc t d) : ∀ y ∈ d.ids, y ∈ t.ids := by
  intro y hy
  rcases desc_split h with ⟨p, q, hpq⟩
  rw [HTree.ids_def, hpq]
  simp only [List.mem_cons, List.mem_append]
  tauto

mutual
/-- The hidden-excluded collection gathers only descendant ids. -/
theorem gac_false_subset_tree (hideGet : Nat → Bool) (t : HTree) :
    ∀ x ∈ get_all_children hideGet false t, x ∈ t.children.ids := by
  cases t with
  | node i cs => exact gac_false_subset_forest hideGet cs

theorem gac_false_subset_forest (hideGet : Nat → Bool) (f : HForest) :
    ∀ x ∈ get_all_children_forest hideGet false f, x ∈ f.ids := by
  cases f with
  | nil => intro x hx; cases hx
  | cons c f =>
    intro x hx
    show x ∈ c.ids ++ f.ids
    rcases List.mem_append.1 hx with hx | hx
    · by_cases hc : hideGet c.id
      · rw [if_neg (by simp [hc])] at hx
        cases hx
      · rw [if_pos (by simp [hc])] at hx
        rcases List.mem_cons.1 hx with rfl | hx
        · exact List.mem_append.2 (Or.inl (id_mem_ids c))
        · refine List.mem_append.2 (Or.inl ?_)
          rw [HTree.ids_def]
          exact List.mem_cons_of_mem _ (gac_false_subset_tree hideGet c x hx)
    · exact List.mem_append.2 (Or.inr (gac_false_subset_forest hideGet f x hx))
end

/-- The id of a strict descendant occurs in the ancestor's preorder ids. -/
theorem below_mem_ids {d e : HTree} (h : Desc d e) : e.id ∈ d.ids :=
  (mem_ids_tree d).2 (Or.inr ⟨e, h, rfl⟩)

mutual
/-- Soundness of hidden-exclusion below one node: everything collected with
`include_hidden = false` is unhidden and reached through unhidden strict
ancestors only. -/
theorem gac_false_sound_tree (hideGet : Nat → Bool) (t : HTree)
    (hnd : t.children.ids.Nodup) :
    ∀ x ∈ get_all_children hideGet false t, hideGet x = false ∧
      ∀ d, Desc t d → (∃ e, Desc d e ∧ e.id = x) → hideGet d.id = false := by
  cases t with
  | node i cs =>
    intro x hx
    have h := gac_false_sound_forest hideGet cs hnd x hx
    refine ⟨h.1, fun d hd he => h.2 d ?_ he⟩
    exact desc_iff_descF_children.1 hd

theorem gac_false_sound_forest (hideGet : Nat → Bool) (f : HForest)
    (hnd : f.ids.Nodup) :
    ∀ x ∈ get_all_children_forest hideGet false f, hideGet x = false ∧
      ∀ d, DescF f d → (∃ e, Desc d e ∧ e.id = x) → hideGet d.id = false := by
  cases f with
  | nil => intro x hx; cases hx
  | cons c f =>
    intro x hx
    simp only [HForest.ids] at hnd
    rw [List.nodup_append] at hnd
    rcases hnd with ⟨hc_nd, hf_nd, hdisj⟩
    have hc_nd' : c.children.ids.Nodup := by
      rw [HTree.ids_def] at hc_nd
      exact (List.nodup_cons.1 hc_nd).2
    have hcid_notmem : c.id ∉ c.children.ids := by
      rw [HTree.ids_def] at hc_nd
      exact (List.nodup_cons.1 hc_nd).1
    rcases List.mem_append.1 hx with hx | hx
    · -- collected in the block of the first tree `c`
      by_cases hhc : hideGet c.id
      · rw [if_neg (by simp [hhc])] at hx
        cases hx
      · rw [if_pos (by simp [hhc])] at hx
        have hcfalse : hideGet c.id = false := by simpa using hhc
        have main : ∀ y, y ∈ c.ids →
            ∀ d, DescF (HForest.cons c f) d → (∃ e, Desc d e ∧ e.id = y) →
              ((c = d ∨ Desc c d) → hideGet d.id = false) → hideGet d.id = false := by
          rintro y hy d ⟨t, ht, htd⟩ ⟨e, hde, heid⟩ hbelow
          have hdesc : Desc t e := by
            rcases htd with rfl | htd
            · exact hde
            · exact Desc.trans htd hde
          rcases List.mem_cons.1 ht with rfl | ht
          · exact hbelow htd
          · exfalso
            have hyf : y ∈ f.ids :=
              heid ▸ (mem_ids_forest f).2 ⟨e, ⟨t, ht, Or.inr hdesc⟩, rfl⟩
            exact hdisj hy hyf
        rcases List.mem_cons.1 hx with rfl | hx
        · -- x is the id of c itself
          refine ⟨hcfalse, fun d hd he => main _ (id_mem_ids c) d hd he ?_⟩
          rintro (rfl | hcd)
          · exact hcfalse
          · exfalso
            rcases he with ⟨e, hde, heid⟩
            have : e.id ∈ c.children.ids :=
              (mem_ids_forest c.children).2
                ⟨e, desc_iff_descF_children.1 (Desc.trans hcd hde), rfl⟩
            rw [heid] at this
            exact hcid_notmem this
        · -- x was collected strictly below c
          have ih := gac_false_sound_tree hideGet c hc_nd' x hx
          have hx_ids : x ∈ c.children.ids := gac_false_subset_tree hideGet c x hx
          have hx_c : x ∈ c.ids := by
            rw [HTree.ids_def]
            exact List.mem_cons_of_mem _ hx_ids
          refine ⟨ih.1, fun d hd he => main _ hx_c d hd he ?_⟩
          rintro (rfl | hcd)
          · exact hcfalse
          · exact ih.2 d hcd he
    · -- collected in the rest of the forest
      have ih := gac_false_sound_forest hideGet f hf_nd x hx
      have hx_f : x ∈ f.ids := gac_false_subset_forest hideGet f x hx
      refine ⟨ih.1, ?_⟩
      rintro d ⟨t, ht, htd⟩ he
      rcases List.mem_cons.1 ht with rfl | ht
      · exfalso
        rcases he with ⟨e, hde, heid⟩
        have hx_c : x ∈ t.ids := by
          rcases htd with rfl | htd
          · exact heid ▸ below_mem_ids hde
          · exact heid ▸ below_mem_ids (Desc.trans htd hde)
        exact hdisj hx_c hx_f
      · exact ih.2 d ⟨t, ht, htd⟩ he
end

/-! ## Claim theorems about `get_all_children` -/

/-- **C4**: for every scene node and hide-flag assignment,
`get_all_children(root, include_hidden := true)` returns exactly the ids of
the nodes reachable from the root via repeated `children` expansion,
regardless of hide flags, in depth-first order: each strict-descendant
parent's id occurs before the ids of its children, and sibling subtrees keep
their original relative order. -/
theorem collectDescendants_includeHidden_exact (hideGet : Nat → Bool)
    (t : HTree) (hnd : t.ids.Nodup) :
    (∀ x, x ∈ get_all_children hideGet true t ↔ ∃ d, Desc t d ∧ d.id = x) ∧
    (∀ d c, Desc t d → c ∈ d.children.toList →
      (get_all_children hideGet true t).indexOf d.id <
        (get_all_children hideGet true t).indexOf c.id) ∧
    (∀ d c₁ c₂, (d = t ∨ Desc t d) → [c₁, c₂].Sublist d.children.toList →
      (get_all_children hideGet true t).indexOf c₁.id <
        (get_all_children hideGet true t).indexOf c₂.id) := by
  have hl : t.children.ids.Nodup := by
    rw [HTree.ids_def] at hnd
    exact (List.nodup_cons.1 hnd).2
  rw [get_all_children_true]
  refine ⟨?_, ?_, ?_⟩
  · intro x
    rw [mem_ids_forest]
    constructor
    · rintro ⟨d, hd, rfl⟩
      exact ⟨d, desc_iff_descF_children.2 hd, rfl⟩
    · rintro ⟨d, hd, rfl⟩
      exact ⟨d, desc_iff_descF_children.1 hd, rfl⟩
  · intro d c hd hc
    rcases desc_split hd with ⟨p, q, hpq⟩
    have hcid : c.id ∈ d.children.ids :=
      (mem_ids_forest d.children).2 ⟨c, ⟨c, hc, Or.inl rfl⟩, rfl⟩
    have hsplit : t.children.ids = p ++ d.id :: (d.children.ids ++ q) := by
      rw [hpq, HTree.ids_def]
      simp
    exact indexOf_lt_of_split hsplit (List.mem_append.2 (Or.inl hcid)) hl
  · intro d c₁ c₂ hd hsub
    rcases sibling_ids_split hsub with ⟨P, R, hPR, hc₂⟩
    rcases hd with rfl | hd
    · exact indexOf_lt_of_split hPR hc₂ hl
    · rcases desc_split hd with ⟨p, q, hpq⟩
      have hsplit : t.children.ids = (p ++ d.id :: P) ++ c₁.id :: (R ++ q) := by
        rw [hpq, HTree.ids_def, hPR]
        simp
      exact indexOf_lt_of_split hsplit (List.mem_append.2 (Or.inl hc₂)) hl

/-- Witness for `collectDescendants_includeHidden_exact` at the concrete tree
`t0` with hide flags `hide1`: the hypotheses are satisfiable and the
membership characterisation holds for id 2 (the hidden subtree travels). -/
theorem collectDescendants_includeHidden_exact_witness :
    (HTree.ids t0).Nodup ∧
      (2 ∈ get_all_children hide1 true t0 ↔ ∃ d, Desc t0 d ∧ d.id = 2) :=
  ⟨by decide, (collectDescendants_includeHidden_exact hide1 t0 (by decide)).1 2⟩

/-- **C5**: with `include_hidden = false`, every collected id belongs to an
unhidden object, and every strict ancestor of it strictly between it and the
root is unhidden as well (a hidden node is pruned together with its entire
subtree). -/
theorem collectDescendants_excludeHidden_prunes (hideGet : Nat → Bool)
    (t : HTree) (hnd : t.ids.Nodup) :
    ∀ x ∈ get_all_children hideGet false t, hideGet x = false ∧
      ∀ d, Desc t d → (∃ e, Desc d e ∧ e.id = x) → hideGet d.id = false := by
  have hl : t.children.ids.Nodup := by
    rw [HTree.ids_def] at hnd
    exact (List.nodup_cons.1 hnd).2
  exact gac_false_sound_tree hideGet t hl

/-- Witness for `collectDescendants_excludeHidden_prunes` at the concrete
tree `t0` with object 1 hidden: only id 3 is collected, and 3 is unhidden. -/
theorem collectDescendants_excludeHidden_prunes_witness :
    (HTree.ids t0).Nodup ∧ 3 ∈ get_all_children hide1 false t0 ∧
      hide1 3 = false :=
  ⟨by decide, by decide,
    (collectDescendants_excludeHidden_prunes hide1 t0 (by decide) 3
      (by decide)).1⟩

/-! ## Parent-walk lemmas -/

theorem childIds_subset_children_ids (t : HTree) :
    ∀ x ∈ childIds t, x ∈ t.children.ids := by
  intro x hx
  rcases List.mem_map.1 hx with ⟨c, hc, rfl⟩
  exact (mem_ids_forest t.children).2 ⟨c, ⟨c, hc, Or.inl rfl⟩, rfl⟩

theorem rootIds_subset_ids (f : HForest) : ∀ x ∈ rootIds f, x ∈ f.ids := by
  intro x hx
  rcases List.mem_map.1 hx with ⟨c, hc, rfl⟩
  rcases toList_mem_split hc with ⟨p, q, hpq⟩
  rw [hpq]
  simp only [List.mem_append]
  exact Or.inl (Or.inr (id_mem_ids c))

/-- Ids below a node of a forest occur in the forest's ids. -/
theorem descF_children_ids_subset {f : HForest} {d : HTree} (h : DescF f d) :
    ∀ x ∈ d.children.ids, x ∈ f.ids := by
  intro x hx
  rcases descF_split h with ⟨p, q, hpq⟩
  rw [hpq, HTree.ids_def]
  simp only [List.mem_append, List.mem_cons]
  tauto

mutual
/-- If the parent search inside a tree finds `p`, then `p` is the id of a node
of the tree (the root or a strict descendant) having `x` among its child ids. -/
theorem parentOfT_sound {x p : Nat} (t : HTree) (h : parentOfT x t = some p) :
    ∃ d, (d = t ∨ Desc t d) ∧ d.id = p ∧ x ∈ childIds d := by
  cases t with
  | node i cs =>
    rw [parentOfT] at h
    by_cases hx : x ∈ (HForest.toList cs).map HTree.id
    · rw [if_pos hx] at h
      exact ⟨.node i cs, Or.inl rfl, Option.some.inj h, hx⟩
    · rw [if_neg hx] at h
      rcases parentOfF_sound cs h with ⟨d, hd, hdp, hxc⟩
      refine ⟨d, Or.inr (desc_iff_descF_children.2 hd), hdp, hxc⟩

/-- If the parent search in a forest finds `p`, then `p` is the id of a node
of the forest having `x` among its child ids. -/
theorem parentOfF_sound {x p : Nat} (f : HForest) (h : parentOfF x f = some p) :
    ∃ d, DescF f d ∧ d.id = p ∧ x ∈ childIds d := by
  cases f with
  | nil => cases h
  | cons c f =>
    rw [parentOfF] at h
    cases hct : parentOfT x c with
    | some q =>
      rw [hct] at h
      injection h with h'
      subst h'
      rcases parentOfT_sound c hct with ⟨d, hd, hdp, hxc⟩
      rcases hd with rfl | hd
      · exact ⟨d, ⟨d, List.mem_cons_self _ _, Or.inl rfl⟩, hdp, hxc⟩
      · exact ⟨d, ⟨c, List.mem_cons_self _ _, Or.inr hd⟩, hdp, hxc⟩
    | none =>
      rw [hct] at h
      rcases parentOfF_sound f h with ⟨d, ⟨t, ht, htd⟩, hdp, hxc⟩
      exact ⟨d, ⟨t, List.mem_cons_of_mem _ ht, htd⟩, hdp, hxc⟩
end

/-- A node with a parent occurs in the forest's ids. -/
theorem mem_ids_of_parentOfF {x p : Nat} {f : HForest}
    (h : parentOfF x f = some p) : x ∈ f.ids := by
  rcases parentOfF_sound f h with ⟨d, hd, _, hxc⟩
  exact descF_children_ids_subset hd x (childIds_subset_children_ids d x hxc)

/-- An id outside the forest has no parent. -/
theorem parentOfF_eq_none {x : Nat} {f : HForest} (h : x ∉ f.ids) :
    parentOfF x f = none := by
  cases hp : parentOfF x f with
  | none => rfl
  | some p => exact absurd (mem_ids_of_parentOfF hp) h

/-- Ids of a forest member's subtree occur in the forest's ids. -/
theorem mem_ids_of_toList {f : HForest} {t : HTree} (ht : t ∈ f.toList)
    {y : Nat} (hy : y ∈ t.ids) : y ∈ f.ids := by
  rcases toList_mem_split ht with ⟨p, q, hpq⟩
  rw [hpq]
  simp only [List.mem_append]
  tauto

/-- The children ids of a weak descendant are children ids of the ancestor. -/
theorem children_ids_subset_of_below {t d : HTree} (htd : t = d ∨ Desc t d) :
    ∀ y ∈ d.children.ids, y ∈ t.children.ids := by
  rcases htd with rfl | htd
  · exact fun y hy => hy
  · intro y hy
    rcases desc_split htd with ⟨p, q, hpq⟩
    rw [hpq]
    have : y ∈ d.ids := by
      rw [HTree.ids_def]
      exact List.mem_cons_of_mem _ hy
    simp only [List.mem_append]
    tauto

/-- In a duplicate-free forest, an id that is a child id of some node of the
forest is never also a root id of the forest. -/
theorem not_childIds_root_of_descF {f : HForest} (hnd : f.ids.Nodup)
    {d : HTree} (hd : DescF f d) {x : Nat} (hx : x ∈ childIds d)
    (hroot : x ∈ rootIds f) : False := by
  cases f with
  | nil =>
    rcases hd with ⟨t, ht, _⟩
    cases ht
  | cons c rest =>
    simp only [HForest.ids] at hnd
    rw [List.nodup_append] at hnd
    rcases hnd with ⟨hc_nd, hrest_nd, hdisj⟩
    have hx_dch : x ∈ d.children.ids := childIds_subset_children_ids d x hx
    rcases List.mem_map.1 hroot with ⟨r, hr, hrx⟩
    rcases hd with ⟨t, ht, htd⟩
    have hxt : x ∈ t.children.ids := children_ids_subset_of_below htd _ hx_dch
    rcases List.mem_cons.1 ht with ht1 | ht2 <;>
      rcases List.mem_cons.1 hr with hr1 | hr2
    · -- parent node in the first tree, x the first root id
      have hnd_t : t.ids.Nodup := by rw [ht1]; exact hc_nd
      have hx_tid : t.id = x := by rw [ht1, ← hr1, hrx]
      rw [HTree.ids_def] at hnd_t
      exact (List.nodup_cons.1 hnd_t).1 (hx_tid ▸ hxt)
    · -- parent node in the first tree, x a root id of the rest
      have hx_c : x ∈ c.ids := by
        rw [HTree.ids_def]
        refine List.mem_cons_of_mem _ ?_
        rw [ht1] at hxt
        exact hxt
      have hx_rest : x ∈ rest.ids :=
        mem_ids_of_toList hr2 (hrx ▸ id_mem_ids r)
      exact hdisj hx_c hx_rest
    · -- parent node in the rest, x the first root id
      have hx_c : x ∈ c.ids := by
        have hcx : c.id = x := by rw [← hr1]; exact hrx
        exact hcx ▸ id_mem_ids c
      have hx_rest : x ∈ rest.ids := by
        refine mem_ids_of_toList ht2 ?_
        rw [HTree.ids_def]
        exact List.mem_cons_of_mem _ hxt
      exact hdisj hx_c hx_rest
    · -- both in the rest: recurse
      refine not_childIds_root_of_descF hrest_nd ⟨t, ht2, htd⟩ hx ?_
      rw [rootIds, ← hrx]
      exact List.mem_map_of_mem _ hr2

mutual
/-- In a duplicate-free tree, the parent search finds exactly the node that
has `x` among its children. -/
theorem parentOfT_complete {x : Nat} (t : HTree) (hnd : t.ids.Nodup)
    {d : HTree} (hd : d = t ∨ Desc t d) (hx : x ∈ childIds d) :
    parentOfT x t = some d.id := by
  cases t with
  | node i cs =>
    have hnd_cs : cs.ids.Nodup := by
      rw [HTree.ids_def] at hnd
      exact (List.nodup_cons.1 hnd).2
    rcases hd with rfl | hd
    · have hx' : x ∈ List.map HTree.id (HForest.toList cs) := hx
      rw [parentOfT, if_pos hx']
      rfl
    · have hnotroot : x ∉ (HForest.toList cs).map HTree.id := fun hroot =>
        not_childIds_root_of_descF hnd_cs (desc_iff_descF_children.1 hd) hx hroot
      rw [parentOfT, if_neg hnotroot]
      exact parentOfF_complete cs hnd_cs (desc_iff_descF_children.1 hd) hx

/-- In a duplicate-free forest, the parent search finds exactly the node that
has `x` among its children. -/
theorem parentOfF_complete {x : Nat} (f : HForest) (hnd : f.ids.Nodup)
    {d : HTree} (hd : DescF f d) (hx : x ∈ childIds d) :
    parentOfF x f = some d.id := by
  cases f with
  | nil =>
    rcases hd with ⟨t, ht, _⟩
    cases ht
  | cons c rest =>
    simp only [HForest.ids] at hnd
    rw [List.nodup_append] at hnd
    rcases hnd with ⟨hc_nd, hrest_nd, hdisj⟩
    rcases hd with ⟨t, ht, htd⟩
    rcases List.mem_cons.1 ht with ht1 | ht2
    · have hd_c : d = c ∨ Desc c d := by
        rw [ht1] at htd
        rcases htd with h | h
        · exact Or.inl h.symm
        · exact Or.inr h
      have hsome : parentOfT x c = some d.id := parentOfT_complete c hc_nd hd_c hx
      simp only [parentOfF, hsome]
    · have hnone : parentOfT x c = none := by
        cases hp : parentOfT x c with
        | none => rfl
        | some p =>
          exfalso
          rcases parentOfT_sound c hp with ⟨d', hd', _, hxc'⟩
          have hd'_c : c = d' ∨ Desc c d' := by
            rcases hd' with h | h
            · exact Or.inl h.symm
            · exact Or.inr h
          have hx_c : x ∈ c.ids := by
            rw [HTree.ids_def]
            exact List.mem_cons_of_mem _ (children_ids_subset_of_below hd'_c _
              (childIds_subset_children_ids d' x hxc'))
          have hx_rest : x ∈ rest.ids :=
            descF_children_ids_subset ⟨t, ht2, htd⟩ x
              (childIds_subset_children_ids d x hx)
          exact hdisj hx_c hx_rest
      simp only [parentOfF, hnone]
      exact parentOfF_complete rest hrest_nd ⟨t, ht2, htd⟩ hx
end

/-- In a duplicate-free forest a parent occurs strictly earlier in preorder
than the child: the parent walk strictly decreases the preorder index. -/
theorem parentOfF_indexOf_lt {x p : Nat} {f : HForest} (hnd : f.ids.Nodup)
    (h : parentOfF x f = some p) : f.ids.indexOf p < f.ids.indexOf x := by
  rcases parentOfF_sound f h with ⟨t, ht, rfl, hxc⟩
  rcases descF_split ht with ⟨P, Q, hPQ⟩
  have hsplit : f.ids = P ++ t.id :: (t.children.ids ++ Q) := by
    rw [hPQ, HTree.ids_def]
    simp
  exact indexOf_lt_of_split hsplit
    (List.mem_append.2 (Or.inl (childIds_subset_children_ids t x hxc))) hnd

theorem anc_indexOf_lt {f : HForest} {a x : Nat} (hnd : f.ids.Nodup)
    (h : Anc f a x) : f.ids.indexOf a < f.ids.indexOf x := by
  induction h with
  | parent hp => exact parentOfF_indexOf_lt hnd hp
  | step hp _ ih => exact lt_trans ih (parentOfF_indexOf_lt hnd hp)

theorem anc_mem_right {f : HForest} {a x : Nat} (h : Anc f a x) : x ∈ f.ids := by
  cases h with
  | parent hp => exact mem_ids_of_parentOfF hp
  | step hp _ => exact mem_ids_of_parentOfF hp

/-- Every element of the fuelled parent chain is an ancestor. -/
theorem mem_parent_chain_anc {f : HForest} :
    ∀ fuel x a, a ∈ parent_chain f fuel x → Anc f a x := by
  intro fuel
  induction fuel with
  | zero => intro x a h; cases h
  | succ n ih =>
    intro x a h
    rw [parent_chain] at h
    cases hp : parentOfF x f with
    | none => rw [hp] at h; cases h
    | some p =>
      rw [hp] at h
      rcases List.mem_cons.1 h with rfl | h
      · exact Anc.parent hp
      · exact Anc.step hp (ih p a h)

/-- With enough fuel the parent chain reaches every ancestor. -/
theorem anc_mem_parent_chain {f : HForest} (hnd : f.ids.Nodup) {a x : Nat}
    (h : Anc f a x) :
    ∀ fuel, f.ids.indexOf x < fuel → a ∈ parent_chain f fuel x := by
  induction h with
  | @parent x p hp =>
    intro fuel hf
    cases fuel with
    | zero => omega
    | succ n =>
      rw [parent_chain, hp]
      exact List.mem_cons_self _ _
  | @step x p a hp hanc ih =>
    intro fuel hf
    cases fuel with
    | zero => omega
    | succ n =>
      rw [parent_chain, hp]
      have hlt : f.ids.indexOf p < f.ids.indexOf x := parentOfF_indexOf_lt hnd hp
      exact List.mem_cons_of_mem _ (ih n (by omega))

/-- The loop test of `filter_selection` decides exactly "some ancestor of `x`
is in the selection". -/
theorem is_child_of_selected_iff {f : HForest} {S : List Nat} {x : Nat}
    (hnd : f.ids.Nodup) :
    is_child_of_selected f S x = true ↔ ∃ a ∈ S, Anc f a x := by
  rw [is_child_of_selected, List.any_eq_true]
  constructor
  · rintro ⟨p, hp_chain, hp_S⟩
    have hpS : p ∈ S := by simpa [List.contains] using hp_S
    exact ⟨p, hpS, mem_parent_chain_anc _ _ _ hp_chain⟩
  · rintro ⟨a, haS, hanc⟩
    refine ⟨a, ?_, by simpa [List.contains] using haS⟩
    exact anc_mem_parent_chain hnd hanc _
      (List.indexOf_lt_length.2 (anc_mem_right hanc))

/-- A duplicate-free-list minimiser exists for any nonempty list. -/
theorem exists_min_by {S : List Nat} (h : S ≠ []) (g : Nat → Nat) :
    ∃ s ∈ S, ∀ u ∈ S, g s ≤ g u := by
  induction S with
  | nil => exact absurd rfl h
  | cons a S ih =>
    by_cases hS : S = []
    · subst hS
      refine ⟨a, List.mem_cons_self _ _, ?_⟩
      intro u hu
      rcases List.mem_cons.1 hu with rfl | hu
      · exact le_refl _
      · cases hu
    · rcases ih hS with ⟨s, hs, hmin⟩
      by_cases hle : g a ≤ g s
      · refine ⟨a, List.mem_cons_self _ _, ?_⟩
        intro u hu
        rcases List.mem_cons.1 hu with rfl | hu
        · exact le_refl _
        · exact le_trans hle (hmin u hu)
      · refine ⟨s, List.mem_cons_of_mem _ hs, ?_⟩
        intro u hu
        rcases List.mem_cons.1 hu with rfl | hu
        · exact le_of_not_le hle
        · exact hmin u hu

/-! ## Claim theorems about `filter_selection` -/

/-- **C3**: for every duplicate-free scene forest and selection list `S`,
`filter_selection` returns a subset of `S`, no returned element has an
ancestor (via repeated parent walk) in `S`, every element of `S` is either
returned or has an ancestor in `S`, and the relative order of the returned
elements is the one of `S` (the result is a sublist of `S`). -/
theorem filterTopLevel_correct (f : HForest) (S : List Nat)
    (hnd : f.ids.Nodup) :
    (∀ x ∈ filter_selection f S, x ∈ S) ∧
    (filter_selection f S).Sublist S ∧
    (∀ x ∈ filter_selection f S, ¬∃ a ∈ S, Anc f a x) ∧
    (∀ x ∈ S, x ∈ filter_selection f S ∨ ∃ a ∈ S, Anc f a x) := by
  refine ⟨?_, List.filter_sublist S, ?_, ?_⟩
  · intro x hx
    exact (List.mem_filter.1 hx).1
  · intro x hx hanc
    have hfalse := (List.mem_filter.1 hx).2
    rw [Bool.not_eq_eq_eq_not, Bool.not_true] at hfalse
    rw [(is_child_of_selected_iff hnd).2 hanc] at hfalse
    cases hfalse
  · intro x hxS
    by_cases h : is_child_of_selected f S x
    · exact Or.inr ((is_child_of_selected_iff hnd).1 h)
    · exact Or.inl (List.mem_filter.2 ⟨hxS, by simp [h]⟩)

/-- Witness for `filterTopLevel_correct` at the concrete forest `f0` with
objects 0 and its grandchild 2 selected: the filtered selection is a
sublist of the original and keeps only top-level nodes. -/
theorem filterTopLevel_correct_witness :
    (HForest.ids f0).Nodup ∧ (∀ x ∈ filter_selection f0 [0, 2], x ∈ [0, 2]) :=
  ⟨by decide, (filterTopLevel_correct f0 [0, 2] (by decide)).1⟩

/-- **C10**: over a duplicate-free (forest-shaped) scene, `filter_selection`
returns a non-empty list on every non-empty selection; consequently the
filtered selection is empty exactly when the raw selection is empty. -/
theorem filterTopLevel_empty_iff (f : HForest) (S : List Nat)
    (hnd : f.ids.Nodup) :
    (S ≠ [] → filter_selection f S ≠ []) ∧
    (filter_selection f S = [] ↔ S = []) := by
  have main : filter_selection f S = [] ↔ S = [] := by
    constructor
    · intro hempty
      by_contra hS
      rcases exists_min_by hS (fun s => f.ids.indexOf s) with ⟨s₀, hs₀, hmin⟩
      have hkept : is_child_of_selected f S s₀ = false := by
        cases hic : is_child_of_selected f S s₀ with
        | false => rfl
        | true =>
          exfalso
          rcases (is_child_of_selected_iff hnd).1 hic with ⟨a, haS, hanc⟩
          have h1 : f.ids.indexOf a < f.ids.indexOf s₀ := anc_indexOf_lt hnd hanc
          have h2 : f.ids.indexOf s₀ ≤ f.ids.indexOf a := hmin a haS
          omega
      have : s₀ ∈ filter_selection f S :=
        List.mem_filter.2 ⟨hs₀, by simp [hkept]⟩
      rw [hempty] at this
      cases this
    · rintro rfl
      rfl
  exact ⟨fun hS hf => hS (main.1 hf), main⟩

/-- Witness for `filterTopLevel_empty_iff` at the concrete forest `f0` with
the non-empty selection `[1, 2]` (2 a child of 1): the filtered selection is
non-empty. -/
theorem filterTopLevel_empty_iff_witness :
    (HForest.ids f0).Nodup ∧ ([1, 2] ≠ ([] : List Nat) →
      filter_selection f0 [1, 2] ≠ []) :=
  ⟨by decide, (filterTopLevel_empty_iff f0 [1, 2] (by decide)).1⟩

/-! ## Projection lemmas for the main operation -/

theorem setActiveFromMapping_selected (m : List (Nat × Nat))
    (oa : Option Nat) (sc : Scene) :
    (setActiveFromMapping m oa sc).selected = sc.selected := by
  rw [setActiveFromMapping.eq_def]
  split
  · rfl
  · split
    · rfl
    · rfl

theorem setActiveFromMapping_hide (m : List (Nat × Nat))
    (oa : Option Nat) (sc : Scene) :
    (setActiveFromMapping m oa sc).hide = sc.hide := by
  rw [setActiveFromMapping.eq_def]
  split
  · rfl
  · split
    · rfl
    · rfl

theorem setActiveFromMapping_active_of_some (m : List (Nat × Nat))
    (a d : Nat) (sc : Scene) (hd : dictLookup m a = some d) :
    (setActiveFromMapping m (some a) sc).active = some d := by
  rw [setActiveFromMapping.eq_def]
  simp only [hd]

/-- On an empty raw selection the operation fails with the no-selection error
and returns the input scene untouched (source lines 88-89). -/
theorem dwsm_empty (s : Scene) (ld : Bool) (h : selectedObjects s = []) :
    duplicate_with_selection_mapping s ld =
      ⟨none, some "No valid objects selected", s, []⟩ := by
  simp [duplicate_with_selection_mapping, h]

theorem dwsm_error_none (s : Scene) (ld : Bool)
    (hne : selectedObjects s ≠ []) :
    (duplicate_with_selection_mapping s ld).error = none := by
  simp only [duplicate_with_selection_mapping, if_neg hne]

theorem dwsm_count_some (s : Scene) (ld : Bool)
    (hne : selectedObjects s ≠ []) :
    (duplicate_with_selection_mapping s ld).count =
      some (selectedObjects s).length := by
  simp only [duplicate_with_selection_mapping, if_neg hne]

theorem dwsm_prov (s : Scene) (ld : Bool) (hne : selectedObjects s ≠ []) :
    (duplicate_with_selection_mapping s ld).prov =
      (hostDuplicate (sceneBeforeDup s)).2 := by
  simp only [duplicate_with_selection_mapping, if_neg hne]

theorem dwsm_scene_selected (s : Scene) (ld : Bool)
    (hne : selectedObjects s ≠ []) :
    (duplicate_with_selection_mapping s ld).scene.selected =
      applySelectionPattern (mappingOf s) (selectedObjects s) := by
  simp only [duplicate_with_selection_mapping, if_neg hne,
    setActiveFromMapping_selected]

theorem dwsm_scene_hide (s : Scene) (ld : Bool)
    (hne : selectedObjects s ≠ []) :
    (duplicate_with_selection_mapping s ld).scene.hide =
      applyHideStates (recordAndClear s).objStates (mappingOf s)
        (sceneAfterDup s).hide := by
  simp only [duplicate_with_selection_mapping, if_neg hne,
    setActiveFromMapping_hide, sceneAfterDup]

theorem dwsm_scene_active (s : Scene) (ld : Bool)
    (hne : selectedObjects s ≠ []) (a d : Nat) (ha : s.active = some a)
    (hd : dictLookup (mappingOf s) a = some d) :
    (duplicate_with_selection_mapping s ld).scene.active = some d := by
  simp only [duplicate_with_selection_mapping, if_neg hne, ha]
  exact setActiveFromMapping_active_of_some _ _ _ _ hd

/-! ## Claim theorems about `duplicate_with_selection_mapping` -/

/-- **C9** (counterexample): on the concrete scene with object 0 and its
child 1 both selected, the operation succeeds and returns 2 — the raw
selection size — while the top-level-filtered selection has size 1, so the
returned count is not the size of the selection after `filter_selection`. -/
theorem dwsm_count_counterexample :
    (duplicate_with_selection_mapping sceneAB false).error = none ∧
    (duplicate_with_selection_mapping sceneAB false).count = some 2 ∧
    (filter_selection sceneAB.forest (selectedObjects sceneAB)).length = 1 := by
  refine ⟨?_, ?_, ?_⟩ <;> decide

/-- **C9** (amended): on success `duplicate_with_selection_mapping` returns
the length of the raw caller selection; no top-level filtering is applied to
the count, so selecting a node together with one of its descendants yields
2, not 1. -/
theorem dwsm_count_raw_selection (s : Scene) (ld : Bool)
    (hne : selectedObjects s ≠ []) :
    (duplicate_with_selection_mapping s ld).count =
      some (selectedObjects s).length ∧
    (duplicate_with_selection_mapping s ld).error = none :=
  ⟨dwsm_count_some s ld hne, dwsm_error_none s ld hne⟩

/-- Witness for `dwsm_count_raw_selection` at the concrete scene: the
selection `[0, 1]` is non-empty and the returned count is 2. -/
theorem dwsm_count_raw_selection_witness :
    selectedObjects sceneAB ≠ [] ∧
    (duplicate_with_selection_mapping sceneAB false).count =
      some (selectedObjects sceneAB).length :=
  ⟨by decide, (dwsm_count_raw_selection sceneAB false (by decide)).1⟩

/-- **C2**: `duplicate_with_selection_mapping` fails with the no-selection
error exactly when the selection is empty after `filter_selection` — over a
forest-shaped scene that happens exactly when the raw selection is empty —
and on that failure it performs no scene mutation at all: the scene is
returned unchanged, no count is produced, and no duplicate is created. -/
theorem dwsm_noSelection_iff (s : Scene) (ld : Bool)
    (hnd : s.forest.ids.Nodup) :
    ((duplicate_with_selection_mapping s ld).error.isSome ↔
      filter_selection s.forest (selectedObjects s) = []) ∧
    ((duplicate_with_selection_mapping s ld).error.isSome →
      (duplicate_with_selection_mapping s ld).scene = s ∧
      (duplicate_with_selection_mapping s ld).count = none ∧
      (duplicate_with_selection_mapping s ld).prov = []) := by
  have hiff := (filterTopLevel_empty_iff s.forest (selectedObjects s) hnd).2
  by_cases h : selectedObjects s = []
  · rw [dwsm_empty s ld h]
    refine ⟨?_, fun _ => ⟨rfl, rfl, rfl⟩⟩
    simp [hiff.2 h]
  · rw [dwsm_error_none s ld h]
    constructor
    · simp only [Option.isSome_none, Bool.false_eq_true, false_iff]
      intro hf
      exact h (hiff.1 hf)
    · intro hfalse
      simp at hfalse

/-- Witness for `dwsm_noSelection_iff` at the concrete scene with nothing
selected: the forest ids are duplicate-free and the operation fails exactly
because the filtered selection is empty. -/
theorem dwsm_noSelection_iff_witness :
    (HForest.ids sceneNoSel.forest).Nodup ∧
    ((duplicate_with_selection_mapping sceneNoSel false).error.isSome ↔
      filter_selection sceneNoSel.forest (selectedObjects sceneNoSel) = []) :=
  ⟨by decide, (dwsm_noSelection_iff sceneNoSel false (by decide)).1⟩

/-- **C8**: the mapping construction pairs the i-th element of the
pre-duplication node list sorted by name with the i-th element of the
post-duplication selection sorted by name, for every position below the
length of the shorter list. -/
theorem mapping_pairs_positional (s : Scene) (i : Nat)
    (h₁ : i < (sortedOriginals s).length)
    (h₂ : i < (sortedDuplicates s).length) :
    (mappingPairs s).length =
      min (sortedOriginals s).length (sortedDuplicates s).length ∧
    ∃ h : i < (mappingPairs s).length,
      (mappingPairs s).get ⟨i, h⟩ =
        ((sortedOriginals s).get ⟨i, h₁⟩, (sortedDuplicates s).get ⟨i, h₂⟩) := by
  have hlen : (mappingPairs s).length =
      min (sortedOriginals s).length (sortedDuplicates s).length := by
    rw [mappingPairs, List.length_zip]
  refine ⟨hlen, ⟨by omega, ?_⟩⟩
  simp [mappingPairs, List.get_eq_getElem, List.getElem_zip]

/-- Witness for `mapping_pairs_positional` at the concrete scene and
position 0: the first mapping pair is the first sorted original with the
first sorted duplicate. -/
theorem mapping_pairs_positional_witness :
    0 < (sortedOriginals sceneAB).length ∧
    0 < (sortedDuplicates sceneAB).length ∧
    ((mappingPairs sceneAB).length =
      min (sortedOriginals sceneAB).length (sortedDuplicates sceneAB).length ∧
    ∃ h : 0 < (mappingPairs sceneAB).length,
      (mappingPairs sceneAB).get ⟨0, h⟩ =
        ((sortedOriginals sceneAB).get ⟨0, by decide⟩,
         (sortedDuplicates sceneAB).get ⟨0, by decide⟩)) :=
  ⟨by decide, by decide,
    mapping_pairs_positional sceneAB 0 (by decide) (by decide)⟩

/-- **C6** (code-bug evaluation): on the concrete scene where object 0 and
its hidden child 1 are both selected, the run succeeds, yet afterwards the
original object 1 — hidden before the call — is left unhidden: the second
pass of the recording loop overwrote its recorded state with the already
cleared flags, so the restore of source lines 170-178 writes back cleared
flags.  Its duplicate (id 3) ends up unhidden as well instead of carrying
the original hidden flag. -/
theorem dwsm_hide_not_restored_bug :
    sceneAB.hide 1 = ⟨true, false, false⟩ ∧
    (duplicate_with_selection_mapping sceneAB false).error = none ∧
    (duplicate_with_selection_mapping sceneAB false).scene.hide 1 =
      ⟨false, false, false⟩ ∧
    dictLookup (mappingOf sceneAB) 1 = some 3 ∧
    (duplicate_with_selection_mapping sceneAB false).scene.hide 3 =
      ⟨false, false, false⟩ := by
  refine ⟨?_, ?_, ?_, ?_, ?_⟩ <;> decide

/-- The selection-pattern fold never selects an object of `S` (objects of `S`
only ever get deselected, mapped duplicates lie outside `S`). -/
theorem applySelectionPattern_aux_mem (m : List (Nat × Nat)) (S : List Nat)
    (Hval : ∀ o d, dictLookup m o = some d → d ∉ S) (x : Nat) (hx : x ∈ S) :
    ∀ (l : List Nat), (∀ o ∈ l, o ∈ S) → ∀ acc : Nat → Bool,
      (l.foldl (fun sel o =>
        let sel := upd sel o false
        match dictLookup m o with
        | some d => upd sel d true
        | none => sel) acc) x = true ↔ (acc x = true ∧ x ∉ l) := by
  intro l
  induction l with
  | nil =>
    intro _ acc
    simp
  | cons o l ih =>
    intro hsub acc
    rw [List.foldl_cons]
    rw [ih (fun o' ho' => hsub o' (List.mem_cons_of_mem _ ho'))]
    have hne_ol : x ∉ o :: l ↔ (¬x = o ∧ x ∉ l) := by
      simp [List.mem_cons]
    cases hl : dictLookup m o with
    | some d =>
      have hdx : ¬x = d := fun h => (Hval o d hl) (h ▸ hx)
      simp only [hl, upd, if_neg hdx]
      by_cases hxo : x = o
      · simp [hxo]
      · simp [hxo, hne_ol]
    | none =>
      simp only [hl, upd]
      by_cases hxo : x = o
      · simp [hxo]
      · simp [hxo, hne_ol]

/-- For a target outside `S`, the selection-pattern fold selects it exactly
when some processed original maps to it. -/
theorem applySelectionPattern_aux_notmem (m : List (Nat × Nat)) (S : List Nat)
    (x : Nat) (hx : x ∉ S) :
    ∀ (l : List Nat), (∀ o ∈ l, o ∈ S) → ∀ acc : Nat → Bool,
      (l.foldl (fun sel o =>
        let sel := upd sel o false
        match dictLookup m o with
        | some d => upd sel d true
        | none => sel) acc) x = true ↔
      (acc x = true ∨ ∃ o ∈ l, dictLookup m o = some x) := by
  intro l
  induction l with
  | nil =>
    intro _ acc
    simp
  | cons o l ih =>
    intro hsub acc
    have hxo : ¬x = o := fun h => hx (h ▸ hsub o (List.mem_cons_self _ _))
    rw [List.foldl_cons]
    rw [ih (fun o' ho' => hsub o' (List.mem_cons_of_mem _ ho'))]
    cases hl : dictLookup m o with
    | some d =>
      simp only [hl, upd]
      by_cases hxd : x = d
      · subst hxd
        simp [hl]
      · simp only [if_neg hxd, if_neg hxo]
        constructor
        · rintro (h | ⟨o', ho', hlo'⟩)
          · exact Or.inl h
          · exact Or.inr ⟨o', List.mem_cons_of_mem _ ho', hlo'⟩
        · rintro (h | ⟨o', ho', hlo'⟩)
          · exact Or.inl h
          · rcases List.mem_cons.1 ho' with rfl | ho'
            · rw [hl] at hlo'
              injection hlo' with h'
              exact absurd h'.symm hxd
            · exact Or.inr ⟨o', ho', hlo'⟩
    | none =>
      simp only [hl, upd, if_neg hxo]
      constructor
      · rintro (h | ⟨o', ho', hlo'⟩)
        · exact Or.inl h
        · exact Or.inr ⟨o', List.mem_cons_of_mem _ ho', hlo'⟩
      · rintro (h | ⟨o', ho', hlo'⟩)
        · exact Or.inl h
        · rcases List.mem_cons.1 ho' with rfl | ho'
          · rw [hl] at hlo'
            cases hlo'
          · exact Or.inr ⟨o', ho', hlo'⟩

/-- Characterisation of the final selection pattern (source lines 190-198)
when the mapped duplicates are disjoint from the originals. -/
theorem applySelectionPattern_spec (m : List (Nat × Nat)) (S : List Nat)
    (Hval : ∀ o d, dictLookup m o = some d → d ∉ S) (x : Nat) :
    applySelectionPattern m S x = true ↔
      ∃ o ∈ S, dictLookup m o = some x := by
  rw [applySelectionPattern]
  by_cases hx : x ∈ S
  · rw [applySelectionPattern_aux_mem m S Hval x hx S (fun _ h => h)]
    simp only [Bool.false_eq_true, false_and, false_iff]
    rintro ⟨o, hoS, hlo⟩
    exact (Hval o x hlo) hx
  · rw [applySelectionPattern_aux_notmem m S x hx S (fun _ h => h)]
    simp

theorem dictLookup_eq_some {α : Type} {m : List (Nat × α)} {k : Nat} {v : α}
    (h : dictLookup m k = some v) : (k, v) ∈ m := by
  rw [dictLookup] at h
  cases hf : m.find? (fun p => p.1 == k) with
  | none => rw [hf] at h; cases h
  | some p =>
    rw [hf] at h
    injection h with h'
    have hmem := List.mem_of_find?_eq_some hf
    have hpred := List.find?_some hf
    have hk : p.1 = k := by simpa using hpred
    have hp : p = (k, v) := by
      cases p
      simp only [Prod.mk.injEq]
      exact ⟨hk, h'⟩
    rw [← hp]
    exact hmem

theorem mem_snd_dictInsert {α : Type} {m : List (Nat × α)} {k : Nat}
    {v v' : α} (h : v' ∈ (dictInsert m k v).map Prod.snd) :
    v' ∈ m.map Prod.snd ∨ v' = v := by
  rw [dictInsert] at h
  by_cases hc : (m.map Prod.fst).contains k
  · rw [if_pos hc] at h
    rcases List.mem_map.1 h with ⟨p, hp, rfl⟩
    rcases List.mem_map.1 hp with ⟨q, hq, hqe⟩
    by_cases hqk : q.1 = k
    · rw [if_pos hqk] at hqe
      right
      rw [← hqe]
    · rw [if_neg hqk] at hqe
      left
      rw [← hqe]
      exact List.mem_map_of_mem _ hq
  · rw [if_neg hc] at h
    rw [List.map_append] at h
    rcases List.mem_append.1 h with h | h
    · exact Or.inl h
    · right
      simpa using h

theorem mem_snd_foldl_dictInsert {α : Type} (pairs : List (Nat × α)) :
    ∀ (m0 : List (Nat × α)) (v : α),
      v ∈ (pairs.foldl (fun m q => dictInsert m q.1 q.2) m0).map Prod.snd →
      v ∈ m0.map Prod.snd ∨ v ∈ pairs.map Prod.snd := by
  induction pairs with
  | nil =>
    intro m0 v h
    exact Or.inl h
  | cons q pairs ih =>
    intro m0 v h
    rw [List.foldl_cons] at h
    rcases ih _ v h with h | h
    · rcases mem_snd_dictInsert h with h | h
      · exact Or.inl h
      · right
        rw [List.map_cons, h]
        exact List.mem_cons_self _ _
    · right
      rw [List.map_cons]
      exact List.mem_cons_of_mem _ h

theorem mem_insertByName {n : Nat → Nat} {a x : Nat} {l : List Nat} :
    x ∈ insertByName n a l ↔ x = a ∨ x ∈ l := by
  induction l with
  | nil => simp [insertByName]
  | cons b l ih =>
    rw [insertByName]
    by_cases hab : n a ≤ n b
    · rw [if_pos hab]
      simp [List.mem_cons]
    · rw [if_neg hab]
      simp only [List.mem_cons, ih]
      tauto

theorem mem_sortByName {n : Nat → Nat} {x : Nat} {l : List Nat} :
    x ∈ sortByName n l ↔ x ∈ l := by
  induction l with
  | nil => simp [sortByName]
  | cons a l ih =>
    rw [sortByName, mem_insertByName, ih, List.mem_cons]

/-- Every value of the original-to-duplicate mapping is a member of the
post-duplication selection. -/
theorem mappingOf_value_mem {s : Scene} {o d : Nat}
    (h : dictLookup (mappingOf s) o = some d) : d ∈ duplicatedObjects s := by
  have h1 : d ∈ (mappingOf s).map Prod.snd :=
    List.mem_map_of_mem _ (dictLookup_eq_some h)
  rcases mem_snd_foldl_dictInsert _ _ _ h1 with h2 | h2
  · cases h2
  · rcases List.mem_map.1 h2 with ⟨p, hp, rfl⟩
    rw [mappingPairs] at hp
    cases p with
    | mk a b => exact mem_sortByName.1 (List.of_mem_zip hp).2

/-- Every post-duplication selected object is a fresh id. -/
theorem duplicatedObjects_ge_nextId {s : Scene} {x : Nat}
    (h : x ∈ duplicatedObjects s) : s.nextId ≤ x := by
  rw [duplicatedObjects, sceneAfterDup, hostDuplicate, selectedObjects] at h
  have hpred := (List.mem_filter.1 h).2
  have hx : x ∈ (selectedObjects (sceneBeforeDup s)).enum.map
      (fun p => (sceneBeforeDup s).nextId + p.1) := by
    simpa using hpred
  rcases List.mem_map.1 hx with ⟨p, _, rfl⟩
  have : (sceneBeforeDup s).nextId = s.nextId := rfl
  omega

/-- With fresh duplicate ids, no mapping value is an original selected
object. -/
theorem mappingOf_value_fresh (s : Scene)
    (hfresh : ∀ i ∈ s.objOrder, i < s.nextId) :
    ∀ o d, dictLookup (mappingOf s) o = some d → d ∉ selectedObjects s := by
  intro o d hd hdS
  have h3 : s.nextId ≤ d := duplicatedObjects_ge_nextId (mappingOf_value_mem hd)
  have h4 : d ∈ s.objOrder := by
    rw [selectedObjects] at hdS
    exact (List.mem_filter.1 hdS).1
  have := hfresh d h4
  omega

/-- **C7**: after a successful run the final selection is exactly the set of
mapping images of the originally selected objects (each such original is
deselected; a duplicate is selected only when some caller-selected original
maps to it), and the active object becomes the mapping image of the original
active object whenever the mapping has an entry for it. -/
theorem dwsm_selection_pattern (s : Scene) (ld : Bool)
    (hne : selectedObjects s ≠ [])
    (hfresh : ∀ i ∈ s.objOrder, i < s.nextId) :
    (∀ x, (duplicate_with_selection_mapping s ld).scene.selected x = true ↔
      ∃ o ∈ selectedObjects s, dictLookup (mappingOf s) o = some x) ∧
    (∀ o ∈ selectedObjects s,
      (duplicate_with_selection_mapping s ld).scene.selected o = false) ∧
    (∀ a d, s.active = some a → dictLookup (mappingOf s) a = some d →
      (duplicate_with_selection_mapping s ld).scene.active = some d) := by
  have Hval := mappingOf_value_fresh s hfresh
  have hmain : ∀ x,
      (duplicate_with_selection_mapping s ld).scene.selected x = true ↔
        ∃ o ∈ selectedObjects s, dictLookup (mappingOf s) o = some x := by
    intro x
    rw [dwsm_scene_selected s ld hne]
    exact applySelectionPattern_spec _ _ Hval x
  refine ⟨hmain, ?_, ?_⟩
  · intro o hoS
    cases hsel : (duplicate_with_selection_mapping s ld).scene.selected o with
    | false => rfl
    | true =>
      exfalso
      rcases (hmain o).1 hsel with ⟨o', _, hlo'⟩
      exact (Hval o' o hlo') hoS
  · intro a d ha hd
    exact dwsm_scene_active s ld hne a d ha hd

/-- Witness for `dwsm_selection_pattern` at the concrete scene: both
hypotheses hold, object 0 (an original) is deselected afterwards, and the
duplicate 2 of the active original 0 becomes active. -/
theorem dwsm_selection_pattern_witness :
    selectedObjects sceneAB ≠ [] ∧ (∀ i ∈ sceneAB.objOrder, i < sceneAB.nextId) ∧
    (duplicate_with_selection_mapping sceneAB false).scene.selected 0 = false ∧
    (duplicate_with_selection_mapping sceneAB false).scene.active = some 2 :=
  ⟨by decide, by decide,
    (dwsm_selection_pattern sceneAB false (by decide) (by decide)).2.1 0
      (by decide),
    (dwsm_selection_pattern sceneAB false (by decide) (by decide)).2.2 0 2
      rfl (by decide)⟩

/-! ## Duplication counting (claim C1) -/

theorem descF_child {f : HForest} {t c : HTree} (h : DescF f t)
    (hc : c ∈ t.children.toList) : DescF f c := by
  rcases h with ⟨r, hr, htr⟩
  rcases htr with rfl | htr
  · exact ⟨r, hr, Or.inr (Desc.here hc)⟩
  · exact ⟨r, hr, Or.inr (Desc.trans htr (Desc.here hc))⟩

/-- Extending an ancestor chain upward by one parent step. -/
theorem anc_up {f : HForest} {a x b : Nat} (h : Anc f a x)
    (hb : parentOfF a f = some b) : Anc f b x := by
  induction h with
  | parent hp => exact Anc.step hp (Anc.parent hb)
  | step hp _ ih => exact Anc.step hp (ih hb)

/-- In a duplicate-free forest, children-reachability implies parent-walk
reachability: a strict descendant's id has the ancestor node's id in its
parent chain. -/
theorem descF_anc {f : HForest} (hnd : f.ids.Nodup) :
    ∀ {t d : HTree}, Desc t d → DescF f t → Anc f t.id d.id := by
  intro t d hd
  induction hd with
  | @here t c hm =>
    intro hAf
    exact Anc.parent (parentOfF_complete f hnd hAf (List.mem_map_of_mem _ hm))
  | @there t c d hm _ ih =>
    intro hAf
    exact anc_up (ih (descF_child hAf hm))
      (parentOfF_complete f hnd hAf (List.mem_map_of_mem _ hm))

mutual
theorem findTreeT_mem {i : Nat} {t r : HTree} (h : findTreeT i t = some r) :
    i ∈ t.ids := by
  cases t with
  | node j cs =>
    rw [findTreeT] at h
    by_cases hj : j = i
    · rw [HTree.ids_def]
      exact hj ▸ List.mem_cons_self _ _
    · rw [if_neg hj] at h
      rw [HTree.ids_def]
      exact List.mem_cons_of_mem _ (findTreeF_mem h)

theorem findTreeF_mem {i : Nat} {f : HForest} {r : HTree}
    (h : findTreeF i f = some r) : i ∈ f.ids := by
  cases f with
  | nil => cases h
  | cons c rest =>
    rw [findTreeF] at h
    show i ∈ c.ids ++ rest.ids
    cases hct : findTreeT i c with
    | some q =>
      exact List.mem_append.2 (Or.inl (findTreeT_mem hct))
    | none =>
      rw [hct] at h
      exact List.mem_append.2 (Or.inr (findTreeF_mem h))
end

mutual
/-- In a duplicate-free tree the id search finds exactly the node itself. -/
theorem findTreeT_complete {t : HTree} (hnd : t.ids.Nodup) {d : HTree}
    (hd : d = t ∨ Desc t d) : findTreeT d.id t = some d := by
  cases t with
  | node j cs =>
    have hnd_cs : cs.ids.Nodup := by
      rw [HTree.ids_def] at hnd
      exact (List.nodup_cons.1 hnd).2
    rcases hd with rfl | hd
    · have hid : (HTree.node j cs).id = j := rfl
      rw [findTreeT, hid, if_pos rfl]
    · have hmem : d.id ∈ cs.ids := by
        rcases desc_split hd with ⟨p, q, hpq⟩
        show d.id ∈ (HTree.node j cs).children.ids
        rw [hpq]
        simp only [List.mem_append]
        exact Or.inl (Or.inr (id_mem_ids d))
      have hj : ¬j = d.id := by
        rw [HTree.ids_def] at hnd
        intro hj
        exact (List.nodup_cons.1 hnd).1 (hj ▸ hmem)
      rw [findTreeT, if_neg hj]
      exact findTreeF_complete hnd_cs (desc_iff_descF_children.1 hd)

/-- In a duplicate-free forest the id search finds exactly the node itself. -/
theorem findTreeF_complete {f : HForest} (hnd : f.ids.Nodup) {d : HTree}
    (hd : DescF f d) : findTreeF d.id f = some d := by
  cases f with
  | nil =>
    rcases hd with ⟨t, ht, _⟩
    cases ht
  | cons c rest =>
    simp only [HForest.ids] at hnd
    rw [List.nodup_append] at hnd
    rcases hnd with ⟨hc_nd, hrest_nd, hdisj⟩
    rcases hd with ⟨t, ht, htd⟩
    rcases List.mem_cons.1 ht with ht1 | ht2
    · have hd_c : d = c ∨ Desc c d := by
        rw [ht1] at htd
        rcases htd with h | h
        · exact Or.inl h.symm
        · exact Or.inr h
      have hsome : findTreeT d.id c = some d := findTreeT_complete hc_nd hd_c
      rw [findTreeF, hsome]
    · have hd_rest : DescF rest d := ⟨t, ht2, htd⟩
      have hmem_rest : d.id ∈ rest.ids := by
        rcases descF_split hd_rest with ⟨p, q, hpq⟩
        rw [hpq]
        simp only [List.mem_append]
        exact Or.inl (Or.inr (id_mem_ids d))
      have hnone : findTreeT d.id c = none := by
        cases hct : findTreeT d.id c with
        | none => rfl
        | some q => exact absurd (findTreeT_mem hct) (fun h => hdisj h hmem_rest)
      rw [findTreeF, hnone]
      exact findTreeF_complete hrest_nd hd_rest
end

/-- In a duplicate-free forest, `get_all_children(obj, True)` resolved by id
collects exactly the node's descendant preorder ids. -/
theorem getAllChildrenId_eq {s : Scene} (hnd : s.forest.ids.Nodup)
    {A : HTree} (hA : DescF s.forest A) :
    getAllChildrenId s A.id = A.children.ids := by
  rw [getAllChildrenId, findTreeF_complete hnd hA]
  exact get_all_children_true _ A

/-- Every id of a selected node's subtree enters the duplication list. -/
theorem mem_all_objects {s : Scene} (hnd : s.forest.ids.Nodup) {A : HTree}
    (hA : DescF s.forest A) (hAsel : A.id ∈ selectedObjects s) {x : Nat}
    (hx : x ∈ A.ids) : x ∈ all_objects_to_duplicate s := by
  rw [all_objects_to_duplicate]
  refine List.mem_flatMap.2 ⟨A.id, hAsel, ?_⟩
  rw [getAllChildrenId_eq hnd hA]
  rw [HTree.ids_def] at hx
  exact hx

/-- The filtered-by-first-component length of a pair list is the count of the
key in the list of first components. -/
theorem filter_fst_length (l : List (Nat × Nat)) :
    ∀ (sel : List Nat), l.map Prod.fst = sel → ∀ x,
      (l.filter (fun p => p.1 == x)).length = sel.count x := by
  induction l with
  | nil =>
    intro sel h x
    rw [← h]
    rfl
  | cons p l ih =>
    intro sel h x
    rw [← h]
    have hrec := ih (l.map Prod.fst) rfl x
    by_cases hpx : p.1 = x <;>
      simp [List.filter_cons, List.count_cons, hpx, hrec]

/-- The provenance originals are exactly the selection at duplicate time. -/
theorem hostDuplicate_prov_fst (s2 : Scene) :
    (hostDuplicate s2).2.map Prod.fst = selectedObjects s2 := by
  rw [hostDuplicate]
  simp [List.map_map, Function.comp_def]

theorem selectedObjects_sceneBeforeDup (s : Scene) :
    selectedObjects (sceneBeforeDup s) =
      s.objOrder.filter (fun i => (all_objects_to_duplicate s).contains i) := rfl

/-- **C1**: when a node `A` and one of its descendants `b` are both selected,
the top-level filtered selection excludes `b`, and the host duplicate step
creates exactly one duplicate per id of the `A`-subtree — in particular
exactly one duplicate of `b` — not two, because the selection is a set of
per-object flags. -/
theorem dwsm_one_copy_of_subtree (s : Scene) (ld : Bool)
    (hndF : s.forest.ids.Nodup) (hord : s.objOrder.Nodup)
    (hin : ∀ i ∈ s.forest.ids, i ∈ s.objOrder)
    (A : HTree) (hA : DescF s.forest A) (hAsel : s.selected A.id = true)
    (b : Nat) (hdesc : ∃ d, Desc A d ∧ d.id = b) (hbsel : s.selected b = true) :
    b ∉ filter_selection s.forest (selectedObjects s) ∧
    (∀ x, x ∈ A.ids →
      ((duplicate_with_selection_mapping s ld).prov.filter
        (fun p => p.1 == x)).length = 1) := by
  have hAid_f : A.id ∈ s.forest.ids := by
    rcases descF_split hA with ⟨p, q, hpq⟩
    rw [hpq]
    simp only [List.mem_append]
    exact Or.inl (Or.inr (id_mem_ids A))
  have hAmem : A.id ∈ selectedObjects s := by
    rw [selectedObjects]
    exact List.mem_filter.2 ⟨hin _ hAid_f, hAsel⟩
  have hne : selectedObjects s ≠ [] := List.ne_nil_of_mem hAmem
  constructor
  · intro hbf
    have hfalse := (List.mem_filter.1 hbf).2
    rcases hdesc with ⟨d, hAd, rfl⟩
    have hanc : Anc s.forest A.id d.id := descF_anc hndF hAd hA
    rw [(is_child_of_selected_iff hndF).2 ⟨A.id, hAmem, hanc⟩] at hfalse
    cases hfalse
  · intro x hx
    rw [dwsm_prov s ld hne,
      filter_fst_length _ _ (hostDuplicate_prov_fst (sceneBeforeDup s)) x,
      selectedObjects_sceneBeforeDup]
    have hxF : x ∈ s.forest.ids := by
      rcases descF_split hA with ⟨p, q, hpq⟩
      rw [hpq]
      simp only [List.mem_append]
      tauto
    have hpred : (all_objects_to_duplicate s).contains x = true := by
      simpa [List.contains] using mem_all_objects hndF hA hAmem hx
    have hmemf : x ∈ s.objOrder.filter
        (fun i => (all_objects_to_duplicate s).contains i) :=
      List.mem_filter.2 ⟨hin x hxF, hpred⟩
    exact List.count_eq_one_of_mem (hord.filter _) hmemf

/-- Witness for `dwsm_one_copy_of_subtree` at the concrete scene: objects 0
and its child 1 are both selected, 1 is dropped by the filter, and exactly
one duplicate of 1 is produced. -/
theorem dwsm_one_copy_of_subtree_witness :
    1 ∉ filter_selection sceneAB.forest (selectedObjects sceneAB) ∧
    ((duplicate_with_selection_mapping sceneAB false).prov.filter
      (fun p => p.1 == 1)).length = 1 :=
  ⟨(dwsm_one_copy_of_subtree sceneAB false (by decide) (by decide)
      (by decide) (.node 0 (.cons (.node 1 .nil) .nil))
      ⟨.node 0 (.cons (.node 1 .nil) .nil), by decide, Or.inl rfl⟩
      (by decide) 1 ⟨.node 1 .nil, Desc.here (by decide), rfl⟩ (by decide)).1,
   (dwsm_one_copy_of_subtree sceneAB false (by decide) (by decide)
      (by decide) (.node 0 (.cons (.node 1 .nil) .nil))
      ⟨.node 0 (.cons (.node 1 .nil) .nil), by decide, Or.inl rfl⟩
      (by decide) 1 ⟨.node 1 .nil, Desc.here (by decide), rfl⟩ (by decide)).2
      1 (by decide)⟩
